import Mathlib

/-!
Verification of the task orchestrator in src/agent_orchestrator.py.

The Python module keeps a persisted dictionary of Task records
(AgentOrchestrator.tasks, mirrored to tasks.json by save), a
process-local live-process table (the module-level RUNNING_AGENTS
dictionary from task id to process handle), and the set of worktree
directories it has created. Dictionaries are embedded as association
lists, the wall clock and every external effect (process exit,
killpg success, exceptions raised while starting a task) are explicit
parameters, and each method of AgentOrchestrator becomes a pure state
transformer.
-/

namespace AgentOrch

/-- Charwise lowercasing: models Python str.lower as applied to the
task description (line 100) and to the derived branch name (line 119). -/
def strLower (s : String) : String :=
  ⟨s.data.map Char.toLower⟩

/-- Replacing every space by a hyphen: models the single-character
replace at line 119 of create_task. -/
def dashSpaces (s : String) : String :=
  ⟨s.data.map (fun c => if c = ' ' then '-' else c)⟩

/-- Replacing every slash by an underscore: models the replace at
line 146 computing the worktree path. -/
def slashUnder (s : String) : String :=
  ⟨s.data.map (fun c => if c = '/' then '_' else c)⟩

/-- First n characters of a string: models Python slicing s[:n]. -/
def strTake (s : String) (n : Nat) : String :=
  ⟨s.data.take n⟩

/-- Decidable test that the first list starts the second. -/
def pfxOf : List Char → List Char → Bool
  | [], _ => true
  | _ :: _, [] => false
  | a :: as, b :: bs => if a = b then pfxOf as bs else false

/-- Decidable substring test on character lists: some suffix of the
haystack starts with the needle. -/
def subOf : List Char → List Char → Bool
  | ns, [] => ns.isEmpty
  | ns, c :: t => pfxOf ns (c :: t) || subOf ns t

/-- Models the Python substring test of the form kw in text. -/
def strIn (needle hay : String) : Bool :=
  subOf needle.data hay.data

/-- Keyword set routed to the claude profile (line 103). -/
def frontendKws : List String := ["frontend", "ui", "界面", "前端", "react", "vue"]

/-- Keyword set routed to the codex profile (line 105). -/
def backendKws : List String := ["backend", "后端", "api", "database", "数据库"]

/-- Keyword set routed to the glm profile (line 107). -/
def localeKws : List String := ["cn", "中文", "china"]

/-- AgentOrchestrator.select_agent (lines 98-110): lowercase the
description and test the three keyword sets in order, defaulting
to codex. -/
def select_agent (task_description : String) : String :=
  let task_lower := strLower task_description
  if frontendKws.any (fun kw => strIn kw task_lower) then "claude"
  else if backendKws.any (fun kw => strIn kw task_lower) then "codex"
  else if localeKws.any (fun kw => strIn kw task_lower) then "glm"
  else "codex"

/-- The Task dataclass (lines 49-59). Timestamps are modelled as
natural clock readings, matching the monotone order of the ISO
strings produced by datetime.now. -/
structure Task where
  id : String
  description : String
  agent_type : String
  branch : String
  status : String
  started_at : Option Nat
  completed_at : Option Nat
  error : Option String
  pr_url : Option String
deriving DecidableEq

/-- Dictionary lookup on an association list. -/
def dGet {α : Type} : List (String × α) → String → Option α
  | [], _ => none
  | (k, v) :: t, k0 => if k = k0 then some v else dGet t k0

/-- Dictionary update: replace the entry in place, or append. -/
def dInsert {α : Type} : List (String × α) → String → α → List (String × α)
  | [], k0, v0 => [(k0, v0)]
  | (k, v) :: t, k0, v0 =>
      if k = k0 then (k0, v0) :: t else (k, v) :: dInsert t k0 v0

/-- Dictionary deletion. -/
def dErase {α : Type} : List (String × α) → String → List (String × α)
  | [], _ => []
  | (k, v) :: t, k0 => if k = k0 then dErase t k0 else (k, v) :: dErase t k0

/-- Joint state of the orchestrator process: the in-memory task
dictionary (self.tasks), the live-process table RUNNING_AGENTS
(task id to pid), the set of worktree directories present on disk,
and the task dictionary as last persisted to tasks.json. -/
structure OrchState where
  tasks : List (String × Task)
  running : List (String × Nat)
  dirs : List String
  persisted : List (String × Task)
deriving DecidableEq

/-- Branch derivation in create_task (lines 117-120): first 30
characters of the description, spaces to hyphens, lowercased,
prefixed with feat/. -/
def derivedBranch (description : String) : String :=
  "feat/" ++ strLower (dashSpaces (strTake description 30))

/-- AgentOrchestrator.create_task (lines 112-134). The fresh uuid
is a parameter. A missing or empty branch argument is falsy in
Python, so both derive the branch from the description. -/
def create_task (task_id : String) (description : String)
    (branch? : Option String) (s : OrchState) : OrchState × Task :=
  let branch :=
    match branch? with
    | none => derivedBranch description
    | some b => if b = "" then derivedBranch description else b
  let task : Task :=
    { id := task_id, description := description,
      agent_type := select_agent description, branch := branch,
      status := "pending", started_at := none, completed_at := none,
      error := none, pr_url := none }
  let tasks' := dInsert s.tasks task_id task
  ({ s with tasks := tasks', persisted := tasks' }, task)

/-- Worktree path computed in start_task line 146: the branch name
with slashes replaced, under the worktrees control directory. -/
def worktreePathOf (branch : String) : String :=
  ".agent-cluster/worktrees/" ++ slashUnder branch

/-- Steps of the start sequence at which the Python code can raise:
the git worktree call (line 150), dependency installation
(line 162), writing the prompt file (line 167), and launching the
agent process (line 170). -/
inductive StartStep
  | worktree
  | deps
  | prompt
  | launch
deriving DecidableEq

/-- Environment of one start_task call: at most one step raises an
exception (with its text), whether a git worktree add that does run
exits with code 0, the pid Popen returns, and the clock reading
used for started_at. -/
structure StartEnv where
  exc : Option (StartStep × String)
  worktreeAddOk : Bool
  pid : Nat
  now : Nat
deriving DecidableEq

/-- Observable outcome of start_task: its boolean return value,
whether git worktree add was invoked, and the worktree path it
used (none when the task was not found). -/
structure StartOut where
  ok : Bool
  invokedWorktreeAdd : Bool
  path : Option String
deriving DecidableEq

/-- The except branch of start_task (lines 185-190): mark the task
failed with the exception text and persist. RUNNING_AGENTS is not
touched. -/
def startFail (s : OrchState) (tid : String) (task : Task) (msg : String)
    (dirs' : List String) (invoked : Bool) (path : String) : OrchState × StartOut :=
  let task' := { task with status := "failed", error := some msg }
  let tasks' := dInsert s.tasks tid task'
  ({ s with tasks := tasks', dirs := dirs', persisted := tasks' },
   { ok := false, invokedWorktreeAdd := invoked, path := some path })

/-- The success tail of start_task (lines 170-183): register the
pid in RUNNING_AGENTS, set status running, stamp started_at and
persist. -/
def startRun (env : StartEnv) (tid : String) (s : OrchState) (task : Task)
    (path : String) (invoked : Bool) (dirs' : List String) : OrchState × StartOut :=
  let task' := { task with status := "running", started_at := some env.now }
  let tasks' := dInsert s.tasks tid task'
  ({ s with tasks := tasks',
            running := dInsert s.running tid env.pid,
            dirs := dirs',
            persisted := tasks' },
   { ok := true, invokedWorktreeAdd := invoked, path := some path })

/-- Steps 2-4 of start_task (lines 161-183), after the worktree
check: dependency install, prompt write, launch; any of them may
raise, otherwise the task starts. -/
def startAfterWorktree (env : StartEnv) (tid : String) (s : OrchState) (task : Task)
    (path : String) (invoked : Bool) (dirs' : List String) : OrchState × StartOut :=
  match env.exc with
  | some (StartStep.deps, m) => startFail s tid task m dirs' invoked path
  | some (StartStep.prompt, m) => startFail s tid task m dirs' invoked path
  | some (StartStep.launch, m) => startFail s tid task m dirs' invoked path
  | _ => startRun env tid s task path invoked dirs'

/-- AgentOrchestrator.start_task (lines 136-190). An unknown id
returns False without touching any state. Otherwise the worktree
is created only when its directory is absent (a nonzero exit of
git worktree add is only a printed warning and leaves no directory),
and any exception in the sequence lands in startFail. -/
def start_task (env : StartEnv) (tid : String) (s : OrchState) : OrchState × StartOut :=
  match dGet s.tasks tid with
  | none => (s, { ok := false, invokedWorktreeAdd := false, path := none })
  | some task =>
    let path := worktreePathOf task.branch
    if path ∈ s.dirs then
      startAfterWorktree env tid s task path false s.dirs
    else
      match env.exc with
      | some (StartStep.worktree, m) => startFail s tid task m s.dirs true path
      | _ =>
        let dirs' := if env.worktreeAddOk then s.dirs ++ [path] else s.dirs
        startAfterWorktree env tid s task path true dirs'

/-- The exception text that a start_task call with this environment
raises for this task, if any: a worktree exception fires only when
the directory is absent, since an existing directory skips the git
call (line 148). -/
def startRaised (env : StartEnv) (s : OrchState) (task : Task) : Option String :=
  match env.exc with
  | none => none
  | some (StartStep.worktree, m) =>
      if worktreePathOf task.branch ∈ s.dirs then none else some m
  | some (StartStep.deps, m) => some m
  | some (StartStep.prompt, m) => some m
  | some (StartStep.launch, m) => some m

/-- startRaised looked up through the task table. -/
def startRaisedAt (env : StartEnv) (tid : String) (s : OrchState) : Option String :=
  match dGet s.tasks tid with
  | none => none
  | some task => startRaised env s task

/-- AgentOrchestrator.check_task_status (lines 275-304). The exited
flag is the value of the poll test at this call. Returns none for
the not-found error dictionary, otherwise the record the returned
view is built from. -/
def check_task_status (exited : Bool) (now : Nat) (tid : String) (s : OrchState) :
    OrchState × Option Task :=
  match dGet s.tasks tid with
  | none => (s, none)
  | some task =>
    if task.status = "running" then
      match dGet s.running tid with
      | some _ =>
        if exited then
          let task' := { task with status := "completed", completed_at := some now }
          let tasks' := dInsert s.tasks tid task'
          ({ s with tasks := tasks',
                    running := dErase s.running tid,
                    persisted := tasks' }, some task')
        else (s, some task)
      | none => (s, some task)
    else (s, some task)

/-- AgentOrchestrator.stop_task (lines 310-330). killpgOk is
whether os.killpg on the process group succeeds; when it raises,
the bare except returns False with nothing changed. -/
def stop_task (killpgOk : Bool) (tid : String) (s : OrchState) : OrchState × Bool :=
  match dGet s.tasks tid with
  | none => (s, false)
  | some task =>
    match dGet s.running tid with
    | some _ =>
      if killpgOk then
        let task' := { task with status := "failed", error := some "Stopped by user" }
        let tasks' := dInsert s.tasks tid task'
        ({ s with tasks := tasks',
                  running := dErase s.running tid,
                  persisted := tasks' }, true)
      else (s, false)
    | none => (s, false)

/-- AgentOrchestrator.delete_task (lines 332-341): best-effort stop,
then unconditionally erase the record and persist. -/
def delete_task (killpgOk : Bool) (tid : String) (s : OrchState) : OrchState × Bool :=
  match dGet s.tasks tid with
  | none => (s, false)
  | some _ =>
    let s1 := (stop_task killpgOk tid s).1
    let tasks' := dErase s1.tasks tid
    ({ s1 with tasks := tasks', persisted := tasks' }, true)

/-- One controller invocation, with its environment. -/
inductive Op
  | create (task_id description : String) (branch? : Option String)
  | start (env : StartEnv) (tid : String)
  | status (exited : Bool) (now : Nat) (tid : String)
  | stop (killpgOk : Bool) (tid : String)
  | delete (killpgOk : Bool) (tid : String)
deriving DecidableEq

/-- State effect of one controller invocation. -/
def applyOp (op : Op) (s : OrchState) : OrchState :=
  match op with
  | Op.create id d b => (create_task id d b s).1
  | Op.start env tid => (start_task env tid s).1
  | Op.status e n tid => (check_task_status e n tid s).1
  | Op.stop k tid => (stop_task k tid s).1
  | Op.delete k tid => (delete_task k tid s).1

/-! Dictionary lemmas. -/

theorem dGet_cons {α : Type} (a : String) (b : α) (t : List (String × α)) (k : String) :
    dGet ((a, b) :: t) k = if a = k then some b else dGet t k := rfl

theorem dInsert_cons {α : Type} (a : String) (b : α) (t : List (String × α))
    (k : String) (v : α) :
    dInsert ((a, b) :: t) k v = if a = k then (k, v) :: t else (a, b) :: dInsert t k v := rfl

theorem dErase_cons {α : Type} (a : String) (b : α) (t : List (String × α)) (k : String) :
    dErase ((a, b) :: t) k = if a = k then dErase t k else (a, b) :: dErase t k := rfl

theorem dGet_dInsert_self {α : Type} (m : List (String × α)) (k : String) (v : α) :
    dGet (dInsert m k v) k = some v := by
  induction m with
  | nil => simp [dGet, dInsert]
  | cons p t ih =>
    obtain ⟨a, b⟩ := p
    by_cases h : a = k
    · rw [dInsert_cons, if_pos h, dGet_cons, if_pos rfl]
    · rw [dInsert_cons, if_neg h, dGet_cons, if_neg h]
      exact ih

theorem dGet_dInsert_ne {α : Type} (m : List (String × α)) {k k1 : String} (v : α)
    (h : k1 ≠ k) : dGet (dInsert m k v) k1 = dGet m k1 := by
  have hk : ¬ k = k1 := fun hh => h hh.symm
  induction m with
  | nil =>
    rw [show dInsert ([] : List (String × α)) k v = [(k, v)] from rfl,
      dGet_cons, if_neg hk]
  | cons p t ih =>
    obtain ⟨a, b⟩ := p
    by_cases ha : a = k
    · rw [dInsert_cons, if_pos ha, dGet_cons, dGet_cons, if_neg hk,
        if_neg (fun hh => hk (ha ▸ hh))]
    · rw [dInsert_cons, if_neg ha, dGet_cons, dGet_cons]
      by_cases ha1 : a = k1
      · rw [if_pos ha1, if_pos ha1]
      · rw [if_neg ha1, if_neg ha1]
        exact ih

theorem dGet_dErase_self {α : Type} (m : List (String × α)) (k : String) :
    dGet (dErase m k) k = none := by
  induction m with
  | nil => rfl
  | cons p t ih =>
    obtain ⟨a, b⟩ := p
    by_cases h : a = k
    · rw [dErase_cons, if_pos h]
      exact ih
    · rw [dErase_cons, if_neg h, dGet_cons, if_neg h]
      exact ih

theorem dGet_dErase_ne {α : Type} (m : List (String × α)) {k k1 : String}
    (h : k1 ≠ k) : dGet (dErase m k) k1 = dGet m k1 := by
  induction m with
  | nil => rfl
  | cons p t ih =>
    obtain ⟨a, b⟩ := p
    by_cases ha : a = k
    · rw [dErase_cons, if_pos ha, dGet_cons, if_neg (fun hh => h (hh.symm.trans ha))]
      exact ih
    · rw [dErase_cons, if_neg ha, dGet_cons, dGet_cons]
      by_cases ha1 : a = k1
      · rw [if_pos ha1, if_pos ha1]
      · rw [if_neg ha1, if_neg ha1]
        exact ih

theorem dErase_sublist {α : Type} (m : List (String × α)) (k : String) :
    List.Sublist (dErase m k) m := by
  induction m with
  | nil => exact List.Sublist.refl _
  | cons p t ih =>
    obtain ⟨a, b⟩ := p
    by_cases h : a = k
    · rw [dErase_cons, if_pos h]
      exact ih.cons _
    · rw [dErase_cons, if_neg h]
      exact ih.cons₂ _

theorem mem_dErase {α : Type} {m : List (String × α)} {k : String} {p : String × α}
    (h : p ∈ dErase m k) : p ∈ m ∧ p.1 ≠ k := by
  induction m with
  | nil => cases h
  | cons q t ih =>
    obtain ⟨a, b⟩ := q
    by_cases ha : a = k
    · rw [dErase_cons, if_pos ha] at h
      exact ⟨List.mem_cons_of_mem _ (ih h).1, (ih h).2⟩
    · rw [dErase_cons, if_neg ha] at h
      rcases List.mem_cons.mp h with h1 | h1
      · exact ⟨h1 ▸ List.mem_cons_self _ _, by simp [h1, ha]⟩
      · exact ⟨List.mem_cons_of_mem _ (ih h1).1, (ih h1).2⟩

theorem mem_dInsert {α : Type} {m : List (String × α)} {k : String} {v : α}
    {p : String × α} (h : p ∈ dInsert m k v) : p = (k, v) ∨ p ∈ m := by
  induction m with
  | nil => exact Or.inl (by simpa [dInsert] using h)
  | cons q t ih =>
    obtain ⟨a, b⟩ := q
    by_cases ha : a = k
    · rw [dInsert_cons, if_pos ha] at h
      rcases List.mem_cons.mp h with h1 | h1
      · exact Or.inl h1
      · exact Or.inr (List.mem_cons_of_mem _ h1)
    · rw [dInsert_cons, if_neg ha] at h
      rcases List.mem_cons.mp h with h1 | h1
      · exact Or.inr (h1 ▸ List.mem_cons_self _ _)
      · rcases ih h1 with h2 | h2
        · exact Or.inl h2
        · exact Or.inr (List.mem_cons_of_mem _ h2)

theorem dGet_isSome_of_mem {α : Type} {m : List (String × α)} {p : String × α}
    (h : p ∈ m) : (dGet m p.1).isSome = true := by
  induction m with
  | nil => cases h
  | cons q t ih =>
    obtain ⟨a, b⟩ := q
    rcases List.mem_cons.mp h with h1 | h1
    · rw [h1, dGet_cons, if_pos rfl]
      rfl
    · by_cases ha : a = p.1
      · rw [dGet_cons, if_pos ha]
        rfl
      · rw [dGet_cons, if_neg ha]
        exact ih h1

theorem mem_of_dGet {α : Type} {m : List (String × α)} {k : String} {v : α}
    (h : dGet m k = some v) : (k, v) ∈ m := by
  induction m with
  | nil => cases h
  | cons q t ih =>
    obtain ⟨a, b⟩ := q
    by_cases ha : a = k
    · rw [dGet_cons, if_pos ha] at h
      injection h with h2
      rw [← ha, ← h2]
      exact List.mem_cons_self _ _
    · rw [dGet_cons, if_neg ha] at h
      exact List.mem_cons_of_mem _ (ih h)

theorem mem_keys_dInsert {α : Type} {m : List (String × α)} {k a : String} {v : α}
    (h : a ∈ (dInsert m k v).map Prod.fst) : a = k ∨ a ∈ m.map Prod.fst := by
  rcases List.mem_map.mp h with ⟨p, hp, hpa⟩
  rcases mem_dInsert hp with h1 | h1
  · rw [h1] at hpa
    exact Or.inl hpa.symm
  · exact Or.inr (hpa ▸ List.mem_map_of_mem Prod.fst h1)

theorem nodupKeys_dInsert {α : Type} {m : List (String × α)} {k : String} {v : α}
    (h : (m.map Prod.fst).Nodup) : ((dInsert m k v).map Prod.fst).Nodup := by
  induction m with
  | nil => simp [dInsert]
  | cons q t ih =>
    obtain ⟨a, b⟩ := q
    simp only [List.map_cons, List.nodup_cons] at h
    by_cases ha : a = k
    · rw [dInsert_cons, if_pos ha]
      simp only [List.map_cons, List.nodup_cons]
      exact ⟨ha ▸ h.1, h.2⟩
    · rw [dInsert_cons, if_neg ha]
      simp only [List.map_cons, List.nodup_cons]
      refine ⟨fun hmem => ?_, ih h.2⟩
      rcases mem_keys_dInsert hmem with h1 | h1
      · exact ha h1
      · exact h.1 h1

theorem nodupKeys_dErase {α : Type} {m : List (String × α)} {k : String}
    (h : (m.map Prod.fst).Nodup) : ((dErase m k).map Prod.fst).Nodup :=
  List.Nodup.sublist ((dErase_sublist m k).map Prod.fst) h

theorem mem_dInsert_cases {α : Type} {m : List (String × α)} {k : String} {v : α}
    {p : String × α} (hnd : (m.map Prod.fst).Nodup) (h : p ∈ dInsert m k v) :
    p = (k, v) ∨ (p.1 ≠ k ∧ p ∈ m) := by
  induction m with
  | nil => exact Or.inl (by simpa [dInsert] using h)
  | cons q t ih =>
    obtain ⟨a, b⟩ := q
    simp only [List.map_cons, List.nodup_cons] at hnd
    by_cases ha : a = k
    · rw [dInsert_cons, if_pos ha] at h
      rcases List.mem_cons.mp h with h1 | h1
      · exact Or.inl h1
      · refine Or.inr ⟨fun hpk => hnd.1 ?_, List.mem_cons_of_mem _ h1⟩
        rw [← ha] at hpk
        exact hpk ▸ List.mem_map_of_mem Prod.fst h1
    · rw [dInsert_cons, if_neg ha] at h
      rcases List.mem_cons.mp h with h1 | h1
      · exact Or.inr ⟨by simp [h1, ha], h1 ▸ List.mem_cons_self _ _⟩
      · rcases ih hnd.2 h1 with h2 | h2
        · exact Or.inl h2
        · exact Or.inr ⟨h2.1, List.mem_cons_of_mem _ h2.2⟩

/-! Substring lemmas: the substring test is preserved by a charwise
map, which transports a keyword occurrence through lowercasing. -/

theorem pfxOf_map (f : Char → Char) :
    ∀ (ns hs : List Char), pfxOf ns hs = true →
      pfxOf (ns.map f) (hs.map f) = true := by
  intro ns
  induction ns with
  | nil => intro hs _; rfl
  | cons a as ih =>
    intro hs h
    cases hs with
    | nil => cases h
    | cons b bs =>
      rw [show pfxOf (a :: as) (b :: bs) = if a = b then pfxOf as bs else false from rfl] at h
      by_cases hab : a = b
      · rw [if_pos hab] at h
        simp only [List.map_cons]
        rw [show pfxOf (f a :: as.map f) (f b :: bs.map f) =
          if f a = f b then pfxOf (as.map f) (bs.map f) else false from rfl,
          if_pos (by rw [hab])]
        exact ih bs h
      · rw [if_neg hab] at h
        cases h

theorem subOf_map (f : Char → Char) :
    ∀ (hs ns : List Char), subOf ns hs = true →
      subOf (ns.map f) (hs.map f) = true := by
  intro hs
  induction hs with
  | nil =>
    intro ns h
    rw [show subOf ns [] = ns.isEmpty from rfl] at h
    cases ns with
    | nil => rfl
    | cons a as => cases h
  | cons c t ih =>
    intro ns h
    rw [show subOf ns (c :: t) = (pfxOf ns (c :: t) || subOf ns t) from rfl] at h
    simp only [List.map_cons]
    rw [show subOf (ns.map f) (f c :: t.map f) =
      (pfxOf (ns.map f) (f c :: t.map f) || subOf (ns.map f) (t.map f)) from rfl]
    rcases Bool.or_eq_true_iff.mp h with h1 | h1
    · have := pfxOf_map f ns (c :: t) h1
      simp only [List.map_cons] at this
      rw [this]
      rfl
    · rw [ih ns h1]
      simp

/-- Transport of a keyword occurrence through strLower, for keywords
that lowercasing fixes. -/
theorem strIn_strLower {kw s : String}
    (hfix : kw.data.map Char.toLower = kw.data)
    (h : strIn kw s = true) : strIn kw (strLower s) = true := by
  have := subOf_map Char.toLower s.data kw.data h
  rw [hfix] at this
  exact this

/-! Invariants of the controller state. -/

/-- The table entry at key k points at an existing record with
status running. -/
def entryLive (tasks : List (String × Task)) (k : String) : Bool :=
  match dGet tasks k with
  | some t => decide (t.status = "running")
  | none => false

/-- The table entry at key k does not point at a completed record
(a dangling entry is allowed here). -/
def entryNotCompleted (tasks : List (String × Task)) (k : String) : Bool :=
  match dGet tasks k with
  | some t => decide (t.status ≠ "completed")
  | none => true

/-- The status strings the Python code ever writes (line 55). -/
def validStatus (st : String) : Bool :=
  decide (st = "pending" ∨ st = "running" ∨ st = "completed" ∨ st = "failed")

/-- Claim C1's invariant: RUNNING_AGENTS has at most one entry per
task id, and every entry belongs to an existing record with
status running. -/
def Inv (s : OrchState) : Prop :=
  (s.running.map Prod.fst).Nodup ∧ ∀ p ∈ s.running, entryLive s.tasks p.1 = true

instance (s : OrchState) : Decidable (Inv s) := by
  unfold Inv
  exact instDecidableAnd

/-- Auxiliary invariant for claim C2: all stored statuses are among
the four written by the code, and no live-table entry points at a
completed record. -/
def InvC2 (s : OrchState) : Prop :=
  (∀ p ∈ s.tasks, validStatus (Task.status p.2) = true) ∧
  ∀ p ∈ s.running, entryNotCompleted s.tasks p.1 = true

instance (s : OrchState) : Decidable (InvC2 s) := by
  unfold InvC2
  exact instDecidableAnd

/-- Forward order on task statuses: pending before running before
the two terminal statuses, and no move out of a terminal status. -/
def ForwardLe (a b : String) : Prop :=
  a = b ∨ a = "pending" ∨ (a = "running" ∧ (b = "completed" ∨ b = "failed"))

instance (a b : String) : Decidable (ForwardLe a b) := by
  unfold ForwardLe
  exact instDecidableOr

/-- Side conditions under which every operation preserves Inv:
create gets a fresh id (the uuid contract), start is not applied to
a task that still has a live-table entry unless the start sequence
raises nothing, and a delete that has to kill a tracked process
succeeds in killing it. -/
def opOkC1 (s : OrchState) : Op → Bool
  | Op.create id _ _ => decide (dGet s.tasks id = none)
  | Op.start env tid =>
      decide (dGet s.running tid = none) || decide (startRaisedAt env tid s = none)
  | Op.status _ _ _ => true
  | Op.stop _ _ => true
  | Op.delete k tid => decide (dGet s.running tid = none) || k

/-- Side conditions under which statuses only move forward: create
gets a fresh id, and start is only applied to pending or running
tasks. -/
def opOkC2 (s : OrchState) : Op → Bool
  | Op.create id _ _ => decide (dGet s.tasks id = none)
  | Op.start _ tid =>
      match dGet s.tasks tid with
      | some t => decide (t.status = "pending" ∨ t.status = "running")
      | none => true
  | Op.status _ _ _ => true
  | Op.stop _ _ => true
  | Op.delete _ _ => true

/-! Congruence of the entry predicates under task-table updates. -/

theorem entryLive_dInsert_ne {ts : List (String × Task)} {k k1 : String} {t' : Task}
    (h : k1 ≠ k) : entryLive (dInsert ts k t') k1 = entryLive ts k1 := by
  unfold entryLive
  rw [dGet_dInsert_ne ts t' h]

theorem entryLive_dErase_ne {ts : List (String × Task)} {k k1 : String}
    (h : k1 ≠ k) : entryLive (dErase ts k) k1 = entryLive ts k1 := by
  unfold entryLive
  rw [dGet_dErase_ne ts h]

theorem entryNotCompleted_dInsert_ne {ts : List (String × Task)} {k k1 : String} {t' : Task}
    (h : k1 ≠ k) : entryNotCompleted (dInsert ts k t') k1 = entryNotCompleted ts k1 := by
  unfold entryNotCompleted
  rw [dGet_dInsert_ne ts t' h]

theorem entryNotCompleted_dErase_ne {ts : List (String × Task)} {k k1 : String}
    (h : k1 ≠ k) : entryNotCompleted (dErase ts k) k1 = entryNotCompleted ts k1 := by
  unfold entryNotCompleted
  rw [dGet_dErase_ne ts h]

theorem entryLive_dInsert_self {ts : List (String × Task)} {k : String} {t' : Task}
    (h : t'.status = "running") : entryLive (dInsert ts k t') k = true := by
  unfold entryLive
  rw [dGet_dInsert_self]
  exact decide_eq_true h

theorem entryNotCompleted_dInsert_self {ts : List (String × Task)} {k : String} {t' : Task}
    (h : t'.status ≠ "completed") : entryNotCompleted (dInsert ts k t') k = true := by
  unfold entryNotCompleted
  rw [dGet_dInsert_self]
  exact decide_eq_true h

theorem entryNotCompleted_dErase_self {ts : List (String × Task)} {k : String} :
    entryNotCompleted (dErase ts k) k = true := by
  unfold entryNotCompleted
  rw [dGet_dErase_self]

/-! Shape lemmas for start_task: the not-found, exception and
success outcomes. -/

theorem start_task_not_found {env : StartEnv} {tid : String} {s : OrchState}
    (h : dGet s.tasks tid = none) :
    start_task env tid s =
      (s, { ok := false, invokedWorktreeAdd := false, path := none }) := by
  simp only [start_task, h]

theorem start_task_fail_parts {env : StartEnv} {tid : String} {s : OrchState}
    {task : Task} {m : String} (hget : dGet s.tasks tid = some task)
    (hr : startRaised env s task = some m) :
    (start_task env tid s).1.tasks =
        dInsert s.tasks tid { task with status := "failed", error := some m } ∧
    (start_task env tid s).1.running = s.running ∧
    (start_task env tid s).1.persisted = (start_task env tid s).1.tasks ∧
    ((start_task env tid s).1.dirs = s.dirs ∨
      (start_task env tid s).1.dirs = s.dirs ++ [worktreePathOf task.branch]) ∧
    (start_task env tid s).2.ok = false := by
  simp only [start_task, hget]
  by_cases hdir : worktreePathOf task.branch ∈ s.dirs
  · rw [if_pos hdir]
    rcases hexc : env.exc with _ | ⟨step, msg⟩
    · simp only [startRaised, hexc] at hr
      cases hr
    · cases step
      · simp only [startRaised, hexc, if_pos hdir] at hr
        cases hr
      all_goals
        simp only [startRaised, hexc, Option.some.injEq] at hr
        subst hr
        simp only [startAfterWorktree, hexc]
        exact ⟨rfl, rfl, rfl, Or.inl rfl, rfl⟩
  · rw [if_neg hdir]
    rcases hexc : env.exc with _ | ⟨step, msg⟩
    · simp only [startRaised, hexc] at hr
      cases hr
    · cases step
      · simp only [startRaised, hexc, if_neg hdir, Option.some.injEq] at hr
        subst hr
        simp only [hexc]
        exact ⟨rfl, rfl, rfl, Or.inl rfl, rfl⟩
      all_goals
        simp only [startRaised, hexc, Option.some.injEq] at hr
        subst hr
        simp only [hexc, startAfterWorktree]
        refine ⟨rfl, rfl, rfl, ?_, rfl⟩
        by_cases hok : env.worktreeAddOk
        · rw [if_pos hok]
          exact Or.inr rfl
        · rw [if_neg hok]
          exact Or.inl rfl

theorem start_task_run_parts {env : StartEnv} {tid : String} {s : OrchState}
    {task : Task} (hget : dGet s.tasks tid = some task)
    (hr : startRaised env s task = none) :
    (start_task env tid s).1.tasks =
        dInsert s.tasks tid { task with status := "running", started_at := some env.now } ∧
    (start_task env tid s).1.running = dInsert s.running tid env.pid ∧
    (start_task env tid s).1.persisted = (start_task env tid s).1.tasks ∧
    (start_task env tid s).2.ok = true := by
  simp only [start_task, hget]
  by_cases hdir : worktreePathOf task.branch ∈ s.dirs
  · rw [if_pos hdir]
    rcases hexc : env.exc with _ | ⟨step, msg⟩
    · simp only [startAfterWorktree, hexc]
      exact ⟨rfl, rfl, rfl, rfl⟩
    · cases step
      · simp only [startAfterWorktree, hexc]
        exact ⟨rfl, rfl, rfl, rfl⟩
      all_goals (simp only [startRaised, hexc] at hr; cases hr)
  · rw [if_neg hdir]
    rcases hexc : env.exc with _ | ⟨step, msg⟩
    · simp only [hexc, startAfterWorktree]
      exact ⟨rfl, rfl, rfl, rfl⟩
    · cases step
      · simp only [startRaised, hexc, if_neg hdir] at hr
        cases hr
      all_goals (simp only [startRaised, hexc] at hr; cases hr)

/-! Preservation of Inv by each controller operation, under the
opOkC1 side conditions. -/

theorem entryLive_none {ts : List (String × Task)} {k : String}
    (h : dGet ts k = none) : entryLive ts k = false := by
  unfold entryLive
  rw [h]

theorem entryLive_spec {ts : List (String × Task)} {k : String}
    (h : entryLive ts k = true) : ∃ t, dGet ts k = some t ∧ t.status = "running" := by
  unfold entryLive at h
  rcases hg : dGet ts k with _ | t
  · rw [hg] at h
    cases h
  · rw [hg] at h
    exact ⟨t, rfl, of_decide_eq_true h⟩

theorem key_ne_of_untracked {s : OrchState} {tid : String} {q : String × Nat}
    (hun : dGet s.running tid = none) (hq : q ∈ s.running) : q.1 ≠ tid := by
  intro he
  have hs := dGet_isSome_of_mem hq
  rw [he, hun] at hs
  cases hs

theorem inv_update_erase {s : OrchState} {tid : String} {t' : Task}
    (h : Inv s) :
    ((dErase s.running tid).map Prod.fst).Nodup ∧
    ∀ q ∈ dErase s.running tid, entryLive (dInsert s.tasks tid t') q.1 = true := by
  refine ⟨nodupKeys_dErase h.1, fun q hq => ?_⟩
  rcases mem_dErase hq with ⟨hq1, hq2⟩
  rw [entryLive_dInsert_ne hq2]
  exact h.2 q hq1

theorem inv_create {s : OrchState} {id d : String} {b : Option String}
    (h : Inv s) (hf : dGet s.tasks id = none) : Inv (create_task id d b s).1 := by
  refine ⟨h.1, fun q hq => ?_⟩
  have hq' : q ∈ s.running := hq
  have hne : q.1 ≠ id := by
    intro he
    have h2 := h.2 q hq'
    rw [he, entryLive_none hf] at h2
    cases h2
  simp only [create_task]
  rw [entryLive_dInsert_ne hne]
  exact h.2 q hq'

theorem inv_start {env : StartEnv} {tid : String} {s : OrchState}
    (h : Inv s) (hp : opOkC1 s (Op.start env tid) = true) :
    Inv (start_task env tid s).1 := by
  rcases hget : dGet s.tasks tid with _ | task
  · rw [start_task_not_found hget]
    exact h
  · rcases hr : startRaised env s task with _ | m
    · obtain ⟨ht, hrun, hp2, hok⟩ := start_task_run_parts hget hr
      refine ⟨?_, fun q hq => ?_⟩
      · rw [hrun]
        exact nodupKeys_dInsert h.1
      · rw [hrun] at hq
        rw [ht]
        rcases mem_dInsert_cases h.1 hq with h1 | h1
        · rw [h1]
          exact entryLive_dInsert_self rfl
        · rw [entryLive_dInsert_ne h1.1]
          exact h.2 q h1.2
    · have hun : dGet s.running tid = none := by
        simp only [opOkC1] at hp
        rcases Bool.or_eq_true_iff.mp hp with h1 | h1
        · exact of_decide_eq_true h1
        · exfalso
          have h2 := of_decide_eq_true h1
          simp only [startRaisedAt, hget, hr] at h2
          exact Option.noConfusion h2
      obtain ⟨ht, hrun, hp2, hd, hok⟩ := start_task_fail_parts hget hr
      refine ⟨?_, fun q hq => ?_⟩
      · rw [hrun]
        exact h.1
      · rw [hrun] at hq
        rw [ht]
        rw [entryLive_dInsert_ne (key_ne_of_untracked hun hq)]
        exact h.2 q hq

theorem inv_status {e : Bool} {n : Nat} {tid : String} {s : OrchState}
    (h : Inv s) : Inv (check_task_status e n tid s).1 := by
  rcases hget : dGet s.tasks tid with _ | task
  · simp only [check_task_status, hget]
    exact h
  · simp only [check_task_status, hget]
    by_cases hst : task.status = "running"
    · rw [if_pos hst]
      rcases hrun : dGet s.running tid with _ | pid
      · simp only [hrun]
        exact h
      · simp only [hrun]
        by_cases he : e = true
        · rw [if_pos he]
          exact inv_update_erase h
        · rw [if_neg he]
          exact h
    · rw [if_neg hst]
      exact h

theorem inv_stop {k : Bool} {tid : String} {s : OrchState}
    (h : Inv s) : Inv (stop_task k tid s).1 := by
  rcases hget : dGet s.tasks tid with _ | task
  · simp only [stop_task, hget]
    exact h
  · simp only [stop_task, hget]
    rcases hrun : dGet s.running tid with _ | pid
    · simp only [hrun]
      exact h
    · simp only [hrun]
      by_cases hk : k = true
      · rw [if_pos hk]
        exact inv_update_erase h
      · rw [if_neg hk]
        exact h

theorem stop_task_noop_untracked {k : Bool} {tid : String} {s : OrchState} {task : Task}
    (hget : dGet s.tasks tid = some task) (hrun : dGet s.running tid = none) :
    stop_task k tid s = (s, false) := by
  simp only [stop_task, hget, hrun]

theorem stop_task_kill_parts {tid : String} {s : OrchState} {task : Task} {pid : Nat}
    (hget : dGet s.tasks tid = some task) (hrun : dGet s.running tid = some pid) :
    (stop_task true tid s).1.tasks =
        dInsert s.tasks tid { task with status := "failed", error := some "Stopped by user" } ∧
    (stop_task true tid s).1.running = dErase s.running tid ∧
    (stop_task true tid s).1.dirs = s.dirs ∧
    (stop_task true tid s).1.persisted = (stop_task true tid s).1.tasks ∧
    (stop_task true tid s).2 = true := by
  simp only [stop_task, hget, hrun, if_pos rfl]
  exact ⟨rfl, rfl, rfl, rfl, rfl⟩

theorem stop_task_kill_fails {tid : String} {s : OrchState} {task : Task} {pid : Nat}
    (hget : dGet s.tasks tid = some task) (hrun : dGet s.running tid = some pid) :
    stop_task false tid s = (s, false) := by
  simp only [stop_task, hget, hrun]
  rfl

theorem inv_erase_both {s : OrchState} {tid : String} {t' : Task} (h : Inv s) :
    ((dErase s.running tid).map Prod.fst).Nodup ∧
    ∀ q ∈ dErase s.running tid,
      entryLive (dErase (dInsert s.tasks tid t') tid) q.1 = true := by
  refine ⟨nodupKeys_dErase h.1, fun q hq => ?_⟩
  rcases mem_dErase hq with ⟨hq1, hq2⟩
  rw [entryLive_dErase_ne hq2, entryLive_dInsert_ne hq2]
  exact h.2 q hq1

theorem inv_erase_tasks_untracked {s : OrchState} {tid : String} (h : Inv s)
    (hun : dGet s.running tid = none) :
    (s.running.map Prod.fst).Nodup ∧
    ∀ q ∈ s.running, entryLive (dErase s.tasks tid) q.1 = true := by
  refine ⟨h.1, fun q hq => ?_⟩
  rw [entryLive_dErase_ne (key_ne_of_untracked hun hq)]
  exact h.2 q hq

theorem inv_delete {k : Bool} {tid : String} {s : OrchState}
    (h : Inv s) (hp : opOkC1 s (Op.delete k tid) = true) :
    Inv (delete_task k tid s).1 := by
  rcases hget : dGet s.tasks tid with _ | task
  · simp only [delete_task, hget]
    exact h
  · simp only [delete_task, hget]
    rcases hrun : dGet s.running tid with _ | pid
    · rw [stop_task_noop_untracked hget hrun]
      exact inv_erase_tasks_untracked h hrun
    · have hk : k = true := by
        simp only [opOkC1] at hp
        rcases Bool.or_eq_true_iff.mp hp with h1 | h1
        · exfalso
          have h2 := of_decide_eq_true h1
          rw [hrun] at h2
          cases h2
        · exact h1
      subst hk
      obtain ⟨ht, hrn, hdx, hpp, hb⟩ := stop_task_kill_parts hget hrun
      rw [ht, hrn]
      exact inv_erase_both h

/-! Preservation of InvC2 and forward movement of statuses. -/

theorem entryNotCompleted_spec {ts : List (String × Task)} {k : String} {t : Task}
    (hg : dGet ts k = some t) (h : entryNotCompleted ts k = true) :
    t.status ≠ "completed" := by
  unfold entryNotCompleted at h
  rw [hg] at h
  exact of_decide_eq_true h

theorem validAll_dInsert {ts : List (String × Task)} {tid : String} {t' : Task}
    (h : ∀ p ∈ ts, validStatus (Task.status p.2) = true)
    (ht : validStatus t'.status = true) :
    ∀ p ∈ dInsert ts tid t', validStatus (Task.status p.2) = true := by
  intro p hp
  rcases mem_dInsert hp with h1 | h1
  · rw [h1]
    exact ht
  · exact h p h1

theorem validAll_dErase {ts : List (String × Task)} {tid : String}
    (h : ∀ p ∈ ts, validStatus (Task.status p.2) = true) :
    ∀ p ∈ dErase ts tid, validStatus (Task.status p.2) = true :=
  fun p hp => h p (mem_dErase hp).1

theorem forward_id {ts : List (String × Task)} :
    ∀ tid task task', dGet ts tid = some task → dGet ts tid = some task' →
      ForwardLe task.status task'.status := by
  intro tid task task' h1 h2
  rw [h1] at h2
  injection h2 with h3
  subst h3
  exact Or.inl rfl

theorem c2_create {s : OrchState} {id d : String} {b : Option String}
    (h : InvC2 s) (hf : dGet s.tasks id = none) :
    InvC2 (create_task id d b s).1 ∧
    ∀ tid task task', dGet s.tasks tid = some task →
      dGet (create_task id d b s).1.tasks tid = some task' →
      ForwardLe task.status task'.status := by
  constructor
  · refine ⟨?_, fun q hq => ?_⟩
    · simp only [create_task]
      exact validAll_dInsert h.1 (by decide : validStatus "pending" = true)
    · simp only [create_task]
      by_cases hq1 : q.1 = id
      · rw [hq1]
        exact entryNotCompleted_dInsert_self
          (by decide : ("pending" : String) ≠ "completed")
      · rw [entryNotCompleted_dInsert_ne hq1]
        exact h.2 q hq
  · intro tid task task' h1 h2
    simp only [create_task] at h2
    by_cases he : tid = id
    · rw [he, hf] at h1
      cases h1
    · rw [dGet_dInsert_ne _ _ he, h1] at h2
      injection h2 with h3
      subst h3
      exact Or.inl rfl

theorem c2_start {env : StartEnv} {tid0 : String} {s : OrchState}
    (h : InvC2 s) (hp : opOkC2 s (Op.start env tid0) = true) :
    InvC2 (start_task env tid0 s).1 ∧
    ∀ tid task task', dGet s.tasks tid = some task →
      dGet (start_task env tid0 s).1.tasks tid = some task' →
      ForwardLe task.status task'.status := by
  rcases hget : dGet s.tasks tid0 with _ | task0
  · rw [start_task_not_found hget]
    exact ⟨h, forward_id⟩
  · have hstat : task0.status = "pending" ∨ task0.status = "running" := by
      simp only [opOkC2, hget] at hp
      exact of_decide_eq_true hp
    rcases hr : startRaised env s task0 with _ | m
    · obtain ⟨ht, hrun, hp2, hok⟩ := start_task_run_parts hget hr
      constructor
      · refine ⟨?_, fun q hq => ?_⟩
        · rw [ht]
          exact validAll_dInsert h.1 (by decide : validStatus "running" = true)
        · rw [ht]
          rw [hrun] at hq
          by_cases hq1 : q.1 = tid0
          · rw [hq1]
            exact entryNotCompleted_dInsert_self
              (by decide : ("running" : String) ≠ "completed")
          · rcases mem_dInsert hq with h1 | h1
            · exfalso
              apply hq1
              rw [h1]
            · rw [entryNotCompleted_dInsert_ne hq1]
              exact h.2 q h1
      · intro tid task task' h1 h2
        rw [ht] at h2
        by_cases he : tid = tid0
        · subst he
          rw [hget] at h1
          injection h1 with h1e
          subst h1e
          rw [dGet_dInsert_self] at h2
          injection h2 with h2e
          subst h2e
          rcases hstat with hs | hs
          · exact Or.inr (Or.inl hs)
          · exact Or.inl hs
        · rw [dGet_dInsert_ne _ _ he, h1] at h2
          injection h2 with h3
          subst h3
          exact Or.inl rfl
    · obtain ⟨ht, hrun, hp2, hd, hok⟩ := start_task_fail_parts hget hr
      constructor
      · refine ⟨?_, fun q hq => ?_⟩
        · rw [ht]
          exact validAll_dInsert h.1 (by decide : validStatus "failed" = true)
        · rw [ht]
          rw [hrun] at hq
          by_cases hq1 : q.1 = tid0
          · rw [hq1]
            exact entryNotCompleted_dInsert_self
              (by decide : ("failed" : String) ≠ "completed")
          · rw [entryNotCompleted_dInsert_ne hq1]
            exact h.2 q hq
      · intro tid task task' h1 h2
        rw [ht] at h2
        by_cases he : tid = tid0
        · subst he
          rw [hget] at h1
          injection h1 with h1e
          subst h1e
          rw [dGet_dInsert_self] at h2
          injection h2 with h2e
          subst h2e
          rcases hstat with hs | hs
          · exact Or.inr (Or.inl hs)
          · exact Or.inr (Or.inr ⟨hs, Or.inr rfl⟩)
        · rw [dGet_dInsert_ne _ _ he, h1] at h2
          injection h2 with h3
          subst h3
          exact Or.inl rfl

theorem c2_status {e : Bool} {n : Nat} {tid0 : String} {s : OrchState}
    (h : InvC2 s) :
    InvC2 (check_task_status e n tid0 s).1 ∧
    ∀ tid task task', dGet s.tasks tid = some task →
      dGet (check_task_status e n tid0 s).1.tasks tid = some task' →
      ForwardLe task.status task'.status := by
  rcases hget : dGet s.tasks tid0 with _ | task0
  · simp only [check_task_status, hget]
    exact ⟨h, forward_id⟩
  · simp only [check_task_status, hget]
    by_cases hst : task0.status = "running"
    · rw [if_pos hst]
      rcases hrun : dGet s.running tid0 with _ | pid
      · simp only [hrun]
        exact ⟨h, forward_id⟩
      · simp only [hrun]
        by_cases he : e = true
        · rw [if_pos he]
          constructor
          · refine ⟨?_, fun q hq => ?_⟩
            · exact validAll_dInsert h.1 (by decide : validStatus "completed" = true)
            · rcases mem_dErase hq with ⟨hq1, hq2⟩
              show entryNotCompleted (dInsert s.tasks tid0 _) q.1 = true
              rw [entryNotCompleted_dInsert_ne hq2]
              exact h.2 q hq1
          · intro tid task task' h1 h2
            have h2' : dGet (dInsert s.tasks tid0
                { task0 with status := "completed", completed_at := some n })
                tid = some task' := h2
            by_cases he2 : tid = tid0
            · subst he2
              rw [hget] at h1
              injection h1 with h1e
              subst h1e
              rw [dGet_dInsert_self] at h2'
              injection h2' with h2e
              subst h2e
              exact Or.inr (Or.inr ⟨hst, Or.inl rfl⟩)
            · rw [dGet_dInsert_ne _ _ he2, h1] at h2'
              injection h2' with h3
              subst h3
              exact Or.inl rfl
        · rw [if_neg he]
          exact ⟨h, forward_id⟩
    · rw [if_neg hst]
      exact ⟨h, forward_id⟩

theorem c2_stop {k : Bool} {tid0 : String} {s : OrchState} (h : InvC2 s) :
    InvC2 (stop_task k tid0 s).1 ∧
    ∀ tid task task', dGet s.tasks tid = some task →
      dGet (stop_task k tid0 s).1.tasks tid = some task' →
      ForwardLe task.status task'.status := by
  rcases hget : dGet s.tasks tid0 with _ | task0
  · simp only [stop_task, hget]
    exact ⟨h, forward_id⟩
  · rcases hrun : dGet s.running tid0 with _ | pid
    · rw [stop_task_noop_untracked hget hrun]
      exact ⟨h, forward_id⟩
    · cases k with
      | false =>
        rw [stop_task_kill_fails hget hrun]
        exact ⟨h, forward_id⟩
      | true =>
        obtain ⟨ht, hrn, hdx, hpp, hb⟩ := stop_task_kill_parts hget hrun
        have hnc : task0.status ≠ "completed" := by
          have h2 : entryNotCompleted s.tasks tid0 = true :=
            h.2 (tid0, pid) (mem_of_dGet hrun)
          exact entryNotCompleted_spec hget h2
        have hv : validStatus task0.status = true :=
          h.1 (tid0, task0) (mem_of_dGet hget)
        have hcases : task0.status = "pending" ∨ task0.status = "running" ∨
            task0.status = "failed" := by
          rcases of_decide_eq_true hv with h1 | h1 | h1 | h1
          · exact Or.inl h1
          · exact Or.inr (Or.inl h1)
          · exact absurd h1 hnc
          · exact Or.inr (Or.inr h1)
        constructor
        · refine ⟨?_, fun q hq => ?_⟩
          · rw [ht]
            exact validAll_dInsert h.1 (by decide : validStatus "failed" = true)
          · rw [ht]
            rw [hrn] at hq
            rcases mem_dErase hq with ⟨hq1, hq2⟩
            rw [entryNotCompleted_dInsert_ne hq2]
            exact h.2 q hq1
        · intro tid task task' h1 h2
          rw [ht] at h2
          by_cases he : tid = tid0
          · subst he
            rw [hget] at h1
            injection h1 with h1e
            subst h1e
            rw [dGet_dInsert_self] at h2
            injection h2 with h2e
            subst h2e
            rcases hcases with hs | hs | hs
            · exact Or.inr (Or.inl hs)
            · exact Or.inr (Or.inr ⟨hs, Or.inr rfl⟩)
            · exact Or.inl hs
          · rw [dGet_dInsert_ne _ _ he, h1] at h2
            injection h2 with h3
            subst h3
            exact Or.inl rfl

theorem c2_erase {s : OrchState} {tid0 : String} (h : InvC2 s) :
    (∀ p ∈ dErase s.tasks tid0, validStatus (Task.status p.2) = true) ∧
    (∀ q ∈ s.running, entryNotCompleted (dErase s.tasks tid0) q.1 = true) ∧
    ∀ tid task task', dGet s.tasks tid = some task →
      dGet (dErase s.tasks tid0) tid = some task' →
      ForwardLe task.status task'.status := by
  refine ⟨validAll_dErase h.1, fun q hq => ?_, fun tid task task' h1 h2 => ?_⟩
  · by_cases hq1 : q.1 = tid0
    · rw [hq1]
      exact entryNotCompleted_dErase_self
    · rw [entryNotCompleted_dErase_ne hq1]
      exact h.2 q hq
  · by_cases he : tid = tid0
    · rw [he, dGet_dErase_self] at h2
      cases h2
    · rw [dGet_dErase_ne _ he, h1] at h2
      injection h2 with h3
      subst h3
      exact Or.inl rfl

theorem c2_kill_erase {s : OrchState} {tid0 : String} {t' : Task} (h : InvC2 s) :
    (∀ p ∈ dErase (dInsert s.tasks tid0 t') tid0,
        validStatus (Task.status p.2) = true) ∧
    (∀ q ∈ dErase s.running tid0,
        entryNotCompleted (dErase (dInsert s.tasks tid0 t') tid0) q.1 = true) ∧
    ∀ tid task task', dGet s.tasks tid = some task →
      dGet (dErase (dInsert s.tasks tid0 t') tid0) tid = some task' →
      ForwardLe task.status task'.status := by
  refine ⟨fun p hp => ?_, fun q hq => ?_, fun tid task task' h1 h2 => ?_⟩
  · rcases mem_dErase hp with ⟨hp1, hpne⟩
    rcases mem_dInsert hp1 with h1 | h1
    · exfalso
      apply hpne
      rw [h1]
    · exact h.1 p h1
  · rcases mem_dErase hq with ⟨hq1, hq2⟩
    rw [entryNotCompleted_dErase_ne hq2, entryNotCompleted_dInsert_ne hq2]
    exact h.2 q hq1
  · by_cases he : tid = tid0
    · rw [he, dGet_dErase_self] at h2
      cases h2
    · rw [dGet_dErase_ne _ he, dGet_dInsert_ne _ _ he, h1] at h2
      injection h2 with h3
      subst h3
      exact Or.inl rfl

theorem c2_delete {k : Bool} {tid0 : String} {s : OrchState} (h : InvC2 s) :
    InvC2 (delete_task k tid0 s).1 ∧
    ∀ tid task task', dGet s.tasks tid = some task →
      dGet (delete_task k tid0 s).1.tasks tid = some task' →
      ForwardLe task.status task'.status := by
  rcases hget : dGet s.tasks tid0 with _ | task0
  · simp only [delete_task, hget]
    exact ⟨h, forward_id⟩
  · simp only [delete_task, hget]
    rcases hrun : dGet s.running tid0 with _ | pid
    · rw [stop_task_noop_untracked hget hrun]
      exact ⟨⟨(c2_erase h).1, (c2_erase h).2.1⟩, (c2_erase h).2.2⟩
    · cases k with
      | false =>
        rw [stop_task_kill_fails hget hrun]
        exact ⟨⟨(c2_erase h).1, (c2_erase h).2.1⟩, (c2_erase h).2.2⟩
      | true =>
        obtain ⟨ht, hrn, hdx, hpp, hb⟩ := stop_task_kill_parts hget hrun
        rw [ht, hrn]
        exact ⟨⟨(c2_kill_erase h).1, (c2_kill_erase h).2.1⟩, (c2_kill_erase h).2.2⟩

/-! Further shape lemmas used by the claims. -/

theorem check_not_found {e : Bool} {n : Nat} {tid : String} {s : OrchState}
    (h : dGet s.tasks tid = none) : check_task_status e n tid s = (s, none) := by
  simp only [check_task_status, h]

theorem check_complete_parts {tid : String} {s : OrchState} {task : Task}
    {pid now : Nat} (hget : dGet s.tasks tid = some task)
    (hst : task.status = "running") (hrun : dGet s.running tid = some pid) :
    check_task_status true now tid s =
      ({ s with
          tasks := dInsert s.tasks tid
            { task with status := "completed", completed_at := some now },
          running := dErase s.running tid,
          persisted := dInsert s.tasks tid
            { task with status := "completed", completed_at := some now } },
       some { task with status := "completed", completed_at := some now }) := by
  simp only [check_task_status, hget, hrun, if_pos hst, eq_self_iff_true, if_true]

theorem select_agent_eq (d : String) :
    select_agent d =
      (if frontendKws.any (fun kw => strIn kw (strLower d)) then "claude"
       else if backendKws.any (fun kw => strIn kw (strLower d)) then "codex"
       else if localeKws.any (fun kw => strIn kw (strLower d)) then "glm"
       else "codex") := rfl

theorem branch_preserved_dInsert {ts : List (String × Task)} {tid : String}
    {task t0 t' : Task} (h2 : dGet (dInsert ts tid t0) tid = some t')
    (hb : t0.branch = task.branch) : t'.branch = task.branch := by
  rw [dGet_dInsert_self] at h2
  injection h2 with h3
  rw [← h3]
  exact hb

/-! A concrete run of the controller, used by the counterexamples and
witnesses: create task t1, start it successfully, observe it to
completion, and variants. -/

/-- Fresh controller state: empty store, empty table, no worktrees. -/
def initState : OrchState :=
  { tasks := [], running := [], dirs := [], persisted := [] }

/-- Environment of a start call where nothing fails. -/
def goodEnv : StartEnv :=
  { exc := none, worktreeAddOk := true, pid := 7, now := 3 }

/-- Environment of a start call whose prompt-file write raises. -/
def promptBoomEnv : StartEnv :=
  { exc := some (StartStep.prompt, "boom"), worktreeAddOk := true, pid := 9, now := 4 }

/-- State after create_task "t1" "d". -/
def s1 : OrchState := (create_task "t1" "d" none initState).1

/-- State after a successful start of t1: running and tracked. -/
def s2 : OrchState := (start_task goodEnv "t1" s1).1

/-- State after a status query that observes the process exited:
t1 completed and untracked. -/
def s3 : OrchState := (check_task_status true 5 "t1" s2).1

/-- State after starting the completed task t1 again. -/
def s4 : OrchState := (start_task goodEnv "t1" s3).1

/-- The record of t1 as created. -/
def taskP : Task :=
  { id := "t1", description := "d", agent_type := "codex", branch := "feat/d",
    status := "pending", started_at := none, completed_at := none,
    error := none, pr_url := none }

/-- The record of t1 as running. -/
def taskR : Task :=
  { taskP with status := "running", started_at := some 3 }

/-! The claims. -/

/-- C1, counterexample to the claim as stated: in the reachable state
s2 the task t1 is running and tracked, and the invariant holds; a
second start call on t1 whose prompt write raises marks t1 failed while
leaving its live-table entry in place, so the start operation does not
preserve the invariant. -/
theorem c1_counterexample :
    Inv s2 ∧ ¬ Inv (applyOp (Op.start promptBoomEnv "t1") s2) := by
  constructor
  · decide
  · decide

/-- C1 (amended): every live-process-table entry belongs to an existing
record with status running, and the table has at most one entry per
task; create with a fresh id, status/poll and stop preserve this
invariant unconditionally, start preserves it provided the task has no
live-table entry or its start sequence raises no exception, and delete
preserves it provided the task is untracked or the kill of its process
group succeeds. -/
theorem c1_invariant_preserved (s : OrchState) (op : Op) (h : Inv s)
    (hp : opOkC1 s op = true) : Inv (applyOp op s) := by
  cases op with
  | create id d b =>
    simp only [opOkC1] at hp
    exact inv_create h (of_decide_eq_true hp)
  | start env tid => exact inv_start h hp
  | status e n tid => exact inv_status h
  | stop k tid => exact inv_stop h
  | delete k tid => exact inv_delete h hp

/-- C1, witness: the invariant holds in s2 and is preserved by a stop. -/
theorem c1_invariant_preserved_witness :
    Inv s2 ∧ opOkC1 s2 (Op.stop true "t1") = true ∧
    Inv (applyOp (Op.stop true "t1") s2) :=
  ⟨by decide, by decide,
    c1_invariant_preserved s2 (Op.stop true "t1") (by decide) (by decide)⟩

/-- C2, counterexample to the claim as stated: running the operation
sequence create, start, status (process exited), start again moves t1
to completed in s3 and then back to running in s4, so a status does
return to running after completed. -/
theorem c2_counterexample :
    (dGet s3.tasks "t1").map Task.status = some "completed" ∧
    s4 = applyOp (Op.start goodEnv "t1") s3 ∧
    (dGet s4.tasks "t1").map Task.status = some "running" ∧
    ¬ ForwardLe "completed" "running" := by
  refine ⟨by decide, rfl, by decide, by decide⟩

/-- C2 (amended): statuses move only forward along pending to running
to completed or failed (with pending to failed allowed for a start that
raises), provided create allocates a fresh id and start is only invoked
on tasks whose status is pending or running; the code's start has no
status guard, so without that proviso a completed or failed task can be
re-run. The auxiliary invariant InvC2 is preserved alongside. -/
theorem c2_forward_only (s : OrchState) (op : Op) (h : InvC2 s)
    (hp : opOkC2 s op = true) :
    InvC2 (applyOp op s) ∧
    ∀ tid task task', dGet s.tasks tid = some task →
      dGet (applyOp op s).tasks tid = some task' →
      ForwardLe task.status task'.status := by
  cases op with
  | create id d b =>
    simp only [opOkC2] at hp
    exact c2_create h (of_decide_eq_true hp)
  | start env tid => exact c2_start h hp
  | status e n tid => exact c2_status h
  | stop k tid => exact c2_stop h
  | delete k tid => exact c2_delete h

/-- C2, witness: starting the pending task t1 moves it forward from
pending to running. -/
theorem c2_forward_only_witness :
    InvC2 s1 ∧ opOkC2 s1 (Op.start goodEnv "t1") = true ∧
    ForwardLe taskP.status taskR.status :=
  ⟨by decide, by decide,
    (c2_forward_only s1 (Op.start goodEnv "t1") (by decide) (by decide)).2
      "t1" taskP taskR (by decide) (by decide)⟩

/-- C3: for an existing task, the status operation moves it from
running to completed exactly when the task is tracked in the live
table and the process has exited; in that case it stamps completedAt
with the current clock (so completedAt is at least startedAt whenever
the clock has not gone backwards), removes the table entry and
persists; in every other case the call changes nothing and returns the
record unchanged. -/
theorem c3_status_completion (s : OrchState) (tid : String) (task : Task)
    (exited : Bool) (now : Nat) (hget : dGet s.tasks tid = some task) :
    ((task.status = "running" ∧ (dGet s.running tid).isSome = true ∧ exited = true) →
      dGet (check_task_status exited now tid s).1.tasks tid =
        some { task with status := "completed", completed_at := some now } ∧
      dGet (check_task_status exited now tid s).1.running tid = none ∧
      (check_task_status exited now tid s).1.persisted =
        (check_task_status exited now tid s).1.tasks ∧
      (∀ t0, task.started_at = some t0 → t0 ≤ now →
        ∀ c0,
          ({ task with status := "completed", completed_at := some now } : Task).completed_at
              = some c0 →
          t0 ≤ c0)) ∧
    (¬ (task.status = "running" ∧ (dGet s.running tid).isSome = true ∧ exited = true) →
      check_task_status exited now tid s = (s, some task)) := by
  constructor
  · rintro ⟨hst, htr, hex⟩
    rcases hrun : dGet s.running tid with _ | pid
    · rw [hrun] at htr
      cases htr
    · subst hex
      rw [check_complete_parts hget hst hrun]
      refine ⟨?_, ?_, rfl, ?_⟩
      · exact dGet_dInsert_self s.tasks tid _
      · exact dGet_dErase_self s.running tid
      · intro t0 h0 hle c0 hc
        have hc2 : some now = some c0 := hc
        injection hc2 with hc3
        omega
  · intro hnot
    by_cases hst : task.status = "running"
    · rcases hrun : dGet s.running tid with _ | pid
      · simp only [check_task_status, hget, hrun, if_pos hst]
      · cases hex : exited
        · simp only [check_task_status, hget, hrun, if_pos hst, hex]
          rw [if_neg Bool.false_ne_true]
        · exact absurd ⟨hst, by rw [hrun]; rfl, hex⟩ hnot
    · simp only [check_task_status, hget, if_neg hst]

/-- C3, witness: in s2 the task is running, tracked and the process has
exited, so a status query at clock 5 completes it with completedAt 5. -/
theorem c3_status_completion_witness :
    dGet s2.tasks "t1" = some taskR ∧
    dGet (check_task_status true 5 "t1" s2).1.tasks "t1" =
      some { taskR with status := "completed", completed_at := some 5 } :=
  ⟨by decide,
    ((c3_status_completion s2 "t1" taskR true 5 (by decide)).1 (by decide)).1⟩

/-- C4, counterexample to the claim as stated: stopping the tracked
running task t1 succeeds, but the stored error string is
"Stopped by user" with a capital S, not the "stopped by user" the
claim asserts. -/
theorem c4_counterexample :
    (dGet s2.running "t1").isSome = true ∧
    (stop_task true "t1" s2).2 = true ∧
    (dGet (stop_task true "t1" s2).1.tasks "t1").map Task.error =
      some (some "Stopped by user") ∧
    ¬ (dGet (stop_task true "t1" s2).1.tasks "t1").map Task.error =
      some (some "stopped by user") := by
  refine ⟨by decide, by decide, by decide, by decide⟩

/-- C4 (amended): stop on a task with a live tracked process (the kill
succeeds) sets status failed and error "Stopped by user" (capital S),
removes the live-table entry, persists, and returns success; stop on an
existing but untracked task, as after a restart, returns failure and
changes nothing. -/
theorem c4_stop_behavior (s : OrchState) (tid : String) (task : Task)
    (pid : Nat) (k : Bool) (hget : dGet s.tasks tid = some task) :
    (dGet s.running tid = some pid → k = true →
      (stop_task k tid s).2 = true ∧
      dGet (stop_task k tid s).1.tasks tid =
        some { task with status := "failed", error := some "Stopped by user" } ∧
      dGet (stop_task k tid s).1.running tid = none ∧
      (stop_task k tid s).1.persisted = (stop_task k tid s).1.tasks) ∧
    (dGet s.running tid = none → stop_task k tid s = (s, false)) := by
  constructor
  · intro hrun hk
    subst hk
    obtain ⟨ht, hrn, hdx, hpp, hb⟩ := stop_task_kill_parts hget hrun
    refine ⟨hb, ?_, ?_, hpp⟩
    · rw [ht]
      exact dGet_dInsert_self s.tasks tid _
    · rw [hrn]
      exact dGet_dErase_self s.running tid
  · intro hrun
    exact stop_task_noop_untracked hget hrun

/-- C4, witness: stopping the tracked running task t1 in s2. -/
theorem c4_stop_behavior_witness :
    dGet s2.tasks "t1" = some taskR ∧ dGet s2.running "t1" = some 7 ∧
    (stop_task true "t1" s2).2 = true ∧
    dGet (stop_task true "t1" s2).1.tasks "t1" =
      some { taskR with status := "failed", error := some "Stopped by user" } :=
  ⟨by decide, by decide,
    ((c4_stop_behavior s2 "t1" taskR 7 true (by decide)).1 (by decide) rfl).1,
    ((c4_stop_behavior s2 "t1" taskR 7 true (by decide)).1 (by decide) rfl).2.1⟩

/-- C5: start on an id absent from the store returns failure and
leaves the entire state, in particular the in-memory task table and
the persisted table, unchanged. -/
theorem c5_start_not_found (env : StartEnv) (tid : String) (s : OrchState)
    (h : dGet s.tasks tid = none) :
    start_task env tid s =
      (s, { ok := false, invokedWorktreeAdd := false, path := none }) :=
  start_task_not_found h

/-- C5, witness: starting an unknown id on the fresh state. -/
theorem c5_start_not_found_witness :
    dGet initState.tasks "zz" = none ∧
    start_task goodEnv "zz" initState =
      (initState, { ok := false, invokedWorktreeAdd := false, path := none }) :=
  ⟨by decide, c5_start_not_found goodEnv "zz" initState (by decide)⟩

/-- C6: if any exception is raised during the worktree, dependency,
prompt or launch step of start, the task is marked failed with the
exception text in error, the change is persisted, start returns
failure, the live table is untouched, and a worktree directory created
earlier in the same call is not rolled back. -/
theorem c6_start_exception (env : StartEnv) (tid : String) (s : OrchState)
    (task : Task) (m : String) (hget : dGet s.tasks tid = some task)
    (hr : startRaised env s task = some m) :
    (start_task env tid s).2.ok = false ∧
    dGet (start_task env tid s).1.tasks tid =
      some { task with status := "failed", error := some m } ∧
    (start_task env tid s).1.persisted = (start_task env tid s).1.tasks ∧
    (start_task env tid s).1.running = s.running ∧
    ((start_task env tid s).1.dirs = s.dirs ∨
      (start_task env tid s).1.dirs = s.dirs ++ [worktreePathOf task.branch]) := by
  obtain ⟨ht, hrun, hp2, hd, hok⟩ := start_task_fail_parts hget hr
  refine ⟨hok, ?_, hp2, hrun, hd⟩
  rw [ht]
  exact dGet_dInsert_self s.tasks tid _

/-- C6, witness: starting t1 with a prompt-write exception marks it
failed with the exception text. -/
theorem c6_start_exception_witness :
    dGet s1.tasks "t1" = some taskP ∧
    startRaised promptBoomEnv s1 taskP = some "boom" ∧
    (start_task promptBoomEnv "t1" s1).2.ok = false ∧
    dGet (start_task promptBoomEnv "t1" s1).1.tasks "t1" =
      some { taskP with status := "failed", error := some "boom" } :=
  ⟨by decide, by decide,
    (c6_start_exception promptBoomEnv "t1" s1 taskP "boom"
      (by decide) (by decide)).1,
    (c6_start_exception promptBoomEnv "t1" s1 taskP "boom"
      (by decide) (by decide)).2.1⟩

/-- C7: delete on an existing task erases the record and persists,
whatever the outcome of the best-effort stop, returns success, and a
subsequent status query on the id reports not-found. -/
theorem c7_delete (k : Bool) (tid : String) (s : OrchState) (task : Task)
    (hget : dGet s.tasks tid = some task) :
    (delete_task k tid s).2 = true ∧
    dGet (delete_task k tid s).1.tasks tid = none ∧
    (delete_task k tid s).1.persisted = (delete_task k tid s).1.tasks ∧
    ∀ e n, (check_task_status e n tid (delete_task k tid s).1).2 = none := by
  have h2 : dGet (delete_task k tid s).1.tasks tid = none := by
    simp only [delete_task, hget]
    exact dGet_dErase_self _ _
  refine ⟨?_, h2, ?_, fun e n => by rw [check_not_found h2]⟩
  · simp only [delete_task, hget]
  · simp only [delete_task, hget]

/-- C7, witness: deleting t1 while its kill fails still erases the
record and reports success. -/
theorem c7_delete_witness :
    dGet s2.tasks "t1" = some taskR ∧
    (delete_task false "t1" s2).2 = true ∧
    dGet (delete_task false "t1" s2).1.tasks "t1" = none :=
  ⟨by decide, (c7_delete false "t1" s2 taskR (by decide)).1,
    (c7_delete false "t1" s2 taskR (by decide)).2.1⟩

/-- C8: agent selection is the deterministic pure first-match cascade
over the lowercased description, with priority frontend/UI set, then
backend/data set, then locale set, then the codex default; a
description containing "frontend" selects claude, one containing
"database" selects codex when no frontend keyword matched, one
containing "中文" selects glm when no earlier set matched, the empty
description selects codex; and after create the new record is pending
with agentType equal to this selection. -/
theorem c8_selector :
    (∀ d, select_agent d =
      (if frontendKws.any (fun kw => strIn kw (strLower d)) then "claude"
       else if backendKws.any (fun kw => strIn kw (strLower d)) then "codex"
       else if localeKws.any (fun kw => strIn kw (strLower d)) then "glm"
       else "codex")) ∧
    (∀ d, strIn "frontend" d = true → select_agent d = "claude") ∧
    (∀ d, strIn "database" d = true →
      frontendKws.any (fun kw => strIn kw (strLower d)) = false →
      select_agent d = "codex") ∧
    (∀ d, strIn "中文" d = true →
      frontendKws.any (fun kw => strIn kw (strLower d)) = false →
      backendKws.any (fun kw => strIn kw (strLower d)) = false →
      select_agent d = "glm") ∧
    select_agent "" = "codex" ∧
    (∀ id d b s, ((create_task id d b s).2).status = "pending" ∧
      ((create_task id d b s).2).agent_type = select_agent d) := by
  refine ⟨fun d => rfl, fun d h => ?_, fun d h hfront => ?_,
    fun d h hfront hback => ?_, rfl, fun id d b s => ⟨rfl, rfl⟩⟩
  · have h2 : strIn "frontend" (strLower d) = true :=
      strIn_strLower (by decide) h
    have h3 : frontendKws.any (fun kw => strIn kw (strLower d)) = true :=
      List.any_eq_true.mpr ⟨"frontend", by decide, h2⟩
    rw [select_agent_eq, h3]
    simp
  · have h2 : strIn "database" (strLower d) = true :=
      strIn_strLower (by decide) h
    have h3 : backendKws.any (fun kw => strIn kw (strLower d)) = true :=
      List.any_eq_true.mpr ⟨"database", by decide, h2⟩
    rw [select_agent_eq, hfront, h3]
    simp
  · have h2 : strIn "中文" (strLower d) = true :=
      strIn_strLower (by decide) h
    have h3 : localeKws.any (fun kw => strIn kw (strLower d)) = true :=
      List.any_eq_true.mpr ⟨"中文", by decide, h2⟩
    rw [select_agent_eq, hfront, hback, h3]
    simp

/-- C8, witness: the example descriptions of the spec. -/
theorem c8_selector_witness :
    strIn "frontend" "fix frontend bug" = true ∧
    select_agent "fix frontend bug" = "claude" ∧
    strIn "database" "fix database timeout" = true ∧
    select_agent "fix database timeout" = "codex" ∧
    strIn "中文" "中文" = true ∧
    select_agent "中文" = "glm" :=
  ⟨by decide, c8_selector.2.1 "fix frontend bug" (by decide),
    by decide, c8_selector.2.2.1 "fix database timeout" (by decide) (by decide),
    by decide, c8_selector.2.2.2.1 "中文" (by decide) (by decide) (by decide)⟩

/-- C9: when the task's derived worktree directory already exists,
start does not invoke worktree creation and cannot fail at the worktree
step, it uses the same deterministic path (the branch with slashes
replaced, under the worktrees directory), leaves the directory set
unchanged, and preserves the branch so a later start derives the same
path. -/
theorem c9_worktree_idempotent (env : StartEnv) (tid : String) (s : OrchState)
    (task : Task) (hget : dGet s.tasks tid = some task)
    (hdir : worktreePathOf task.branch ∈ s.dirs) :
    (start_task env tid s).2.invokedWorktreeAdd = false ∧
    (start_task env tid s).2.path = some (worktreePathOf task.branch) ∧
    (start_task env tid s).1.dirs = s.dirs ∧
    ((env.exc = none ∨ (∃ m, env.exc = some (StartStep.worktree, m))) →
      (start_task env tid s).2.ok = true) ∧
    ∀ t', dGet (start_task env tid s).1.tasks tid = some t' →
      t'.branch = task.branch := by
  simp only [start_task, hget]
  rw [if_pos hdir]
  rcases hexc : env.exc with _ | ⟨step, msg⟩
  · simp only [startAfterWorktree, hexc]
    exact ⟨rfl, rfl, rfl, fun _ => rfl,
      fun t' h2 => branch_preserved_dInsert h2 rfl⟩
  · cases step
    · simp only [startAfterWorktree, hexc]
      exact ⟨rfl, rfl, rfl, fun _ => rfl,
        fun t' h2 => branch_preserved_dInsert h2 rfl⟩
    all_goals
      simp only [startAfterWorktree, hexc]
      refine ⟨rfl, rfl, rfl, fun hcase => ?_,
        fun t' h2 => branch_preserved_dInsert h2 rfl⟩
      rcases hcase with h1 | ⟨m2, h1⟩ <;> simp at h1

/-- C9, witness: starting t1 again in s2, where the worktree directory
exists, invokes no worktree creation and reuses the derived path. -/
theorem c9_worktree_idempotent_witness :
    dGet s2.tasks "t1" = some taskR ∧
    worktreePathOf taskR.branch ∈ s2.dirs ∧
    (start_task goodEnv "t1" s2).2.invokedWorktreeAdd = false ∧
    (start_task goodEnv "t1" s2).2.path = some (worktreePathOf taskR.branch) :=
  ⟨by decide, by decide,
    (c9_worktree_idempotent goodEnv "t1" s2 taskR (by decide) (by decide)).1,
    (c9_worktree_idempotent goodEnv "t1" s2 taskR (by decide) (by decide)).2.1⟩

/-- C10: a create call without a supplied branch derives the branch as
feat/ followed by exactly the first 30 characters of the description
with every space replaced by a hyphen and the result lowercased, so
the description is silently truncated at 30 characters. -/
theorem c10_branch_derivation (id d : String) (s : OrchState) :
    ((create_task id d none s).2).branch =
      "feat/" ++ strLower (dashSpaces (strTake d 30)) := rfl

end AgentOrch
